import Mathlib

/-!
# Verification of the brownie coverage core (`brownie/cli/coverage.py`)

This file shallowly embeds the coverage-recording and evaluation algorithm of
`src/brownie/cli/coverage.py` (function `main`, lines 87-174) and proves the
frozen claims about it.

The embedding choices, keyed to the Python source:

* A coverage map (`coverage_map[name][source][fn_name]`) is a nested
  association list keyed by contract name, source filename and function name.
  Python dict lookup `m[k]` becomes `atKeyThrow`, which raises (`Err.keyError`)
  when the key is missing, exactly as `coverage_map[name][source]` does on
  line 105 (only `StopIteration` is caught by the surrounding `try`).
* Run identifiers (the `tx` objects used as set elements) are natural numbers;
  the accumulated sets `fn['tx']`, `ln['tx']`, `ln['true']`, `ln['false']` are
  `Finset`s.  The Python code creates them lazily with `setdefault`; here they
  are always-present fields whose initial value is `∅`, which is observationally
  identical (`'tx' not in fn or not fn['tx']` ⟷ `fnTx = ∅`).
* `next(... if cond)` over a dict/list becomes `atFirst`, which transforms the
  first matching element and leaves the list unchanged when nothing matches
  (the `except StopIteration: continue` path).
* `ln['jump']` is `Option Nat`: `some pc` for a line with an associated
  conditional jump, `none` for the falsy no-jump value.
* `tx.trace[i+1]['pc']` is passed to the single-instruction step as
  `next? : Option Nat`; `next? = none` (the instruction is last in its trace)
  raises `Err.indexError` exactly where Python would raise `IndexError`.
* `pct = count / maps['total']` (line 158) raises `Err.zeroDivisionError` when
  `total = 0`, as the Python division does.  Otherwise percentages are exact
  rationals; `round(x, 2)` is modelled as rounding `100 * x` to the nearest
  integer (Python's float-tie behaviour at exact .005 boundaries is not
  modelled; no claim depends on a tie).
* The lazily loaded contracts (`if name not in coverage_map: ... get_build`)
  are modelled by giving the recorder the full build data up front and
  tracking the set `loaded` of contract names actually seen; the final report
  covers exactly the loaded contracts, as Python's `coverage_map` dict does.
  A contract name with no build data makes the load raise (`Err.keyError`).
-/

namespace Brownie

/-- Run identifiers: the `tx` objects added to the coverage sets.  They are
only ever compared for (in)equality and stored in sets. -/
abbrev RunId := Nat

/-- The uncaught Python exceptions the core can raise.  `StopIteration` is
caught by the code (line 124) and therefore never escapes. -/
inductive Err where
  | keyError
  | indexError
  | zeroDivisionError
deriving DecidableEq

/-- One executed instruction of a transaction trace: `t['pc']`, `t['op']`,
`t['contractName']`, `t['source']['filename']`. -/
structure Instr where
  pc : Nat
  op : String
  contractName : String
  source : String
deriving DecidableEq

/-- One line record of a function's coverage map: `i['pc']`, `i['jump']`,
and the accumulated run sets `i['tx']`, `i['true']`, `i['false']`
(`tr` = `'true'`, `fa` = `'false'`; both are Lean keywords). -/
structure LineRecord where
  pc : Finset Nat
  jump : Option Nat
  tx : Finset RunId
  tr : Finset RunId
  fa : Finset RunId
deriving DecidableEq

/-- One function's coverage map entry: `v['fn']['pc']`, `v['fn']['tx']`,
`v['line']`, `v['total']`. -/
structure FnCoverage where
  fnPc : Finset Nat
  fnTx : Finset RunId
  line : List LineRecord
  total : Nat
deriving DecidableEq

/-- `coverage_map[name][source]` : function name → coverage entry. -/
abbrev SrcMap := List (String × FnCoverage)

/-- `coverage_map[name]` : source filename → function map. -/
abbrev ContractMap := List (String × SrcMap)

/-- The full coverage map: contract name → contract map. -/
abbrev CoverageMap := List (String × ContractMap)

/-- Recorder state: the mutable `coverage_map` dict plus the set of contract
names that have been loaded into it (and hence appear in the report). -/
structure RecState where
  loaded : Finset String
  covMap : CoverageMap
deriving DecidableEq

/-- One entry of `history`: the run identifier, the `tx.receiver` flag
(falsy receivers are skipped, line 90-91) and the ordered trace. -/
structure Trace where
  run : RunId
  receiver : Bool
  ins : List Instr
deriving DecidableEq

/-- First binding of a key in an association list (Python dict lookup,
keys are unique in a dict). -/
def lookupA (m : List (String × α)) (k : String) : Option α :=
  match m with
  | [] => none
  | (k', v) :: rest => if k' = k then some v else lookupA rest k

/-- Apply `f` to the value bound to `k`; a missing key raises `KeyError`
(`coverage_map[name][source]`, line 105). -/
def atKeyThrow (k : String) (f : α → Except Err α) :
    List (String × α) → Except Err (List (String × α))
  | [] => .error .keyError
  | (k', v) :: rest =>
    if k' = k then (f v).map (fun v' => (k', v') :: rest)
    else (atKeyThrow k f rest).map (fun m => (k', v) :: m)

/-- Apply `f` to the first element satisfying `p`; when nothing matches the
list is returned unchanged (`next(...)` raising `StopIteration`, which the
code catches and turns into `continue`, lines 105/109/115 and 124-125). -/
def atFirst (p : α → Bool) (f : α → Except Err α) :
    List α → Except Err (List α)
  | [] => .ok []
  | x :: xs =>
    if p x then (f x).map (fun x' => x' :: xs)
    else (atFirst p f xs).map (fun ys => x :: ys)

/-- Record a run on a matched (non-jump) line: `ln['tx'].add(tx)`, line 112. -/
def lineHit (r : RunId) (ln : LineRecord) : LineRecord :=
  { ln with tx := insert r ln.tx }

/-- The JUMPI classification, lines 118-122: skip unless the run is already in
`ln['tx']`; otherwise look at the next instruction's pc (`tx.trace[i+1]`,
raising `IndexError` when there is none): fall-through (`pc+1`) records the
run in `ln['false']`, anything else in `ln['true']`. -/
def jumpStep (r : RunId) (pc : Nat) (next? : Option Nat) (ln : LineRecord) :
    Except Err LineRecord :=
  if r ∉ ln.tx then .ok ln
  else
    match next? with
    | none => .error .indexError
    | some npc =>
      if npc = pc + 1 then .ok { ln with fa := insert r ln.fa }
      else .ok { ln with tr := insert r ln.tr }

/-- The line-level effect of one instruction on a function's line list:
a non-JUMPI opcode hits the first line whose `pc` set contains the pc
(line 109-112); a JUMPI classifies the branch outcome on the first line
whose `jump` equals the pc (line 115-122). -/
def lineOp (r : RunId) (ins : Instr) (next? : Option Nat) :
    List LineRecord → Except Err (List LineRecord) :=
  if ins.op = "JUMPI" then
    atFirst (fun ln => ln.jump = some ins.pc) (jumpStep r ins.pc next?)
  else
    atFirst (fun ln => decide (ins.pc ∈ ln.pc)) (fun ln => .ok (lineHit r ln))

/-- The per-function body of the recording loop, lines 106-122: add the run to
`fn['fn']['tx']` and apply the line-level effect.  The `fn['tx']` addition is
kept even when the line lookup fails, exactly as the Python mutation on
line 106 survives the caught `StopIteration`. -/
def applyFn (r : RunId) (ins : Instr) (next? : Option Nat) (fn : FnCoverage) :
    Except Err FnCoverage :=
  (lineOp r ins next? fn.line).map
    (fun lns => { fn with fnTx := insert r fn.fnTx, line := lns })

/-- One instruction of the recording loop, lines 93-125.  Instructions with a
falsy contract name or source filename are skipped (line 97-98); the contract
map and the source's function map are looked up (raising `KeyError` when
missing); the first function whose `fn['pc']` contains the pc is updated, and
a pc matching no function is silently skipped. -/
def recordInstr (r : RunId) (ins : Instr) (next? : Option Nat) (st : RecState) :
    Except Err RecState :=
  if ins.contractName = "" ∨ ins.source = "" then .ok st
  else
    (atKeyThrow ins.contractName
        (atKeyThrow ins.source
          (atFirst (fun q => decide (ins.pc ∈ q.2.fnPc))
            (fun q => (applyFn r ins next? q.2).map (fun fn' => (q.1, fn')))))
        st.covMap).map
      (fun m => ⟨insert ins.contractName st.loaded, m⟩)

/-- Process one trace in order (`for i in range(len(tx.trace))`), feeding each
instruction the pc of its successor. -/
def recordTrace (r : RunId) : List Instr → RecState → Except Err RecState
  | [], st => .ok st
  | ins :: rest, st =>
    (recordInstr r ins ((rest.head?).map (fun i => i.pc)) st).bind
      (recordTrace r rest)

/-- Effect of one history entry: traces without a receiver are skipped
(line 90-91). -/
def traceOp (t : Trace) (st : RecState) : Except Err RecState :=
  if t.receiver then recordTrace t.run t.ins st else .ok st

/-- The whole recording loop over `history`, lines 89-125. -/
def recordTraces : List Trace → RecState → Except Err RecState
  | [], st => .ok st
  | t :: rest, st => (traceOp t st).bind (recordTraces rest)

/-! ## The evaluator, lines 127-163 -/

/-- The accumulator of the scoring loop (lines 143-157): the running `count`
and the `coverage` index sets `'line'`, `'true'`, `'false'`. -/
structure EvalAcc where
  count : Nat
  line : Finset Nat
  tr : Finset Nat
  fa : Finset Nat
deriving DecidableEq

/-- One iteration of the scoring loop at line index `c` (lines 145-157).
A line with empty `tx` is skipped; a non-branching line scores 1 into `line`;
a branching line with both outcomes observed (`False not in [len(true),
len(false)]`) scores 2 into `line`; otherwise each observed outcome scores 1
into `true` / `false` respectively. -/
def evalStep (acc : EvalAcc) (c : Nat) (ln : LineRecord) : EvalAcc :=
  if ln.tx = ∅ then acc
  else
    match ln.jump with
    | none => { acc with line := insert c acc.line, count := acc.count + 1 }
    | some _ =>
      if ln.tr.card ≠ 0 ∧ ln.fa.card ≠ 0 then
        { acc with line := insert c acc.line, count := acc.count + 2 }
      else
        let acc1 :=
          if ln.tr.card ≠ 0 then
            { acc with tr := insert c acc.tr, count := acc.count + 1 }
          else acc
        if ln.fa.card ≠ 0 then
          { acc1 with fa := insert c acc1.fa, count := acc1.count + 1 }
        else acc1

/-- The scoring loop with its running line index
(`for c,i in enumerate(maps['line'])`). -/
def evalLoop (c : Nat) (lns : List LineRecord) (acc : EvalAcc) : EvalAcc :=
  match lns with
  | [] => acc
  | ln :: rest => evalLoop (c + 1) rest (evalStep acc c ln)

/-- The full scoring loop over a function's lines, starting from index 0 and
an empty accumulator (lines 143-144). -/
def evalAccum (lns : List LineRecord) : EvalAcc :=
  evalLoop 0 lns ⟨0, ∅, ∅, ∅⟩

/-- `round(x, 2)`: round to two decimal places. -/
def round2 (q : ℚ) : ℚ := (round (100 * q) : ℤ) / 100

/-- A per-function result: either the bare `{'pct': p}` object (lines 130,
140, 160) or the detailed object with the three index sets (line 162-163). -/
inductive CovResult where
  | bare (pct : ℚ)
  | detail (line tr fa : Finset Nat) (pct : ℚ)
deriving DecidableEq

/-- Evaluate one function, lines 128-163: `{'pct': 0}` when the function-level
run set is empty or no line was hit; otherwise score the lines, raising
`ZeroDivisionError` on `count / maps['total']` when `total = 0`; a full score
collapses to `{'pct': 1}`, anything else keeps the detail sets and the
two-decimal percentage. -/
def evalFn (f : FnCoverage) : Except Err CovResult :=
  if f.fnTx = ∅ then .ok (.bare 0)
  else if f.line.all (fun ln => decide (ln.tx = ∅)) then .ok (.bare 0)
  else if f.total = 0 then .error .zeroDivisionError
  else if (evalAccum f.line).count = f.total then .ok (.bare 1)
  else .ok (.detail (evalAccum f.line).line (evalAccum f.line).tr
    (evalAccum f.line).fa
    (round2 (((evalAccum f.line).count : ℚ) / (f.total : ℚ))))

/-- Per-source report: one result per function. -/
def evalSrc (fns : SrcMap) : Except Err (List (String × CovResult)) :=
  fns.mapM (fun q => (evalFn q.2).map (fun c => (q.1, c)))

/-- Per-contract report: one entry per source file. -/
def evalCm (cm : ContractMap) : Except Err (List (String × List (String × CovResult))) :=
  cm.mapM (fun q => (evalSrc q.2).map (fun c => (q.1, c)))

/-- The `coverage_eval` structure: contract → source → function → result. -/
abbrev Report := List (String × List (String × List (String × CovResult)))

/-- Stepping-stone instance so that deeply nested report equalities stay
within the instance-search limits. -/
instance decEqSrcReport : DecidableEq (List (String × CovResult)) :=
  inferInstance

/-- Stepping-stone instance for the per-contract layer of a report. -/
instance decEqCmReport : DecidableEq (List (String × List (String × CovResult))) :=
  inferInstance

/-- Decidable equality of whole reports. -/
instance decEqReport : DecidableEq Report :=
  inferInstance

/-- Decidable equality on `Except` results (Lean core does not derive it). -/
instance decEqExcept {ε α : Type} [DecidableEq ε] [DecidableEq α] :
    DecidableEq (Except ε α) := fun x y =>
  match x, y with
  | .ok a, .ok b =>
    if h : a = b then .isTrue (by rw [h])
    else .isFalse (by simp [Except.ok.injEq, h])
  | .error a, .error b =>
    if h : a = b then .isTrue (by rw [h])
    else .isFalse (by simp [Except.error.injEq, h])
  | .ok _, .error _ => .isFalse (by intro h; cases h)
  | .error _, .ok _ => .isFalse (by intro h; cases h)

/-- Build the report for every loaded contract (the evaluation loop on
line 127 runs over the lazily populated `coverage_map` dict; key order is
irrelevant in the serialized output, which is dumped with `sort_keys=True`). -/
def buildReport (st : RecState) : Except Err Report :=
  (st.covMap.filter (fun q => decide (q.1 ∈ st.loaded))).mapM
    (fun q => (evalCm q.2).map (fun c => (q.1, c)))

/-- The recorder-plus-evaluator core: record all of `history` onto the build
data, then evaluate. -/
def runCoverage (build : CoverageMap) (history : List Trace) :
    Except Err Report :=
  (recordTraces history ⟨∅, build⟩).bind buildReport

/-! ## Auxiliary definitions used by the claims -/

/-- The spec's weight of a line: 2 when branching, 1 otherwise. -/
def lineWeight (ln : LineRecord) : Nat :=
  match ln.jump with
  | some _ => 2
  | none => 1

/-- The spec's invariant value of `total`: the sum of the line weights. -/
def totalWeight (lns : List LineRecord) : Nat :=
  (lns.map lineWeight).sum

/-- `bytecode[:-68]` (line 172): the compiled bytecode with the trailing
fixed-length metadata suffix stripped.  The bytecode string is modelled as
its character list; Python's `s[:-68]` is `take (length - 68)`. -/
def stripMetadata (b : List Char) : List Char := b.take (b.length - 68)

/-- The branch-set invariant of one line record: any run recorded in
`true`/`false` is already in `tx`. -/
def lineInv (ln : LineRecord) : Prop := ln.tr ∪ ln.fa ⊆ ln.tx

/-- The branch-set invariant over every line record of every function of the
whole recorder state. -/
def stateInv (st : RecState) : Prop :=
  ∀ q ∈ st.covMap, ∀ s ∈ q.2, ∀ g ∈ s.2, ∀ ln ∈ g.2.line, lineInv ln

instance stateInvDecidable (st : RecState) : Decidable (stateInv st) := by
  unfold stateInv lineInv
  infer_instance

/-- Two state transformers swap: whenever running `f` and then `g` succeeds,
running `g` first also succeeds and running `f` afterwards reaches the same
final result. -/
def Swaps {α : Type} (f g : α → Except Err α) : Prop :=
  ∀ x a b, f x = .ok a → g a = .ok b → ∃ a', g x = .ok a' ∧ f a' = .ok b

/-- The static part of a line record, never changed by recording:
its pc set and jump pc. -/
def lineStatic (ln : LineRecord) : Finset Nat × Option Nat := (ln.pc, ln.jump)

/-- The static part of a function entry: pc set, total weight and the
statics of its lines. -/
def fnStatic (f : FnCoverage) :
    Finset Nat × Nat × List (Finset Nat × Option Nat) :=
  (f.fnPc, f.total, f.line.map lineStatic)

/-- The static part of a source's function map. -/
def srcStatic (fns : SrcMap) :
    List (String × (Finset Nat × Nat × List (Finset Nat × Option Nat))) :=
  fns.map (fun q => (q.1, fnStatic q.2))

/-- The static part of a contract map. -/
def cmStatic (cm : ContractMap) :
    List (String ×
      List (String × (Finset Nat × Nat × List (Finset Nat × Option Nat)))) :=
  cm.map (fun q => (q.1, srcStatic q.2))

/-- The static skeleton of the whole coverage map. -/
def mapStatic (m : CoverageMap) :
    List (String × List (String ×
      List (String × (Finset Nat × Nat × List (Finset Nat × Option Nat))))) :=
  m.map (fun q => (q.1, cmStatic q.2))

/-- An instruction the recorder can always handle: skipped for a falsy
contract name or source, or attributable to build data (its contract name
and source filename both present). -/
def instrOk (build : CoverageMap) (i : Instr) : Prop :=
  i.contractName = "" ∨ i.source = "" ∨
    ((lookupA build i.contractName).bind
      (fun cm => lookupA cm i.source)).isSome = true

/-- A trace whose last instruction (if any) is not a conditional jump, so the
recorder never needs a successor of the final instruction. -/
def traceEndOk (t : Trace) : Prop :=
  (t.ins.getLast?).all (fun i => decide (i.op ≠ "JUMPI")) = true

/-- The spec's `total_weight` invariant over the whole map: every function's
stored total equals the sum of its per-line weights. -/
def weightsOk (m : CoverageMap) : Prop :=
  ∀ q ∈ m, ∀ s ∈ q.2, ∀ g ∈ s.2, g.2.total = totalWeight g.2.line

/-! ## Concrete data used in witnesses and counterexamples -/

/-- A branching line (jump pc 200) already hit by run 1. -/
def lnJEx : LineRecord := ⟨{20}, some 200, {1}, ∅, ∅⟩

/-- A one-line function containing only `lnJEx`. -/
def fnJEx : FnCoverage := ⟨{20, 200}, {1}, [lnJEx], 3⟩

/-- The spec's worked example function: line 0 non-branching, line 1
branching with jump pc 200, total weight 3. -/
def fnEx : FnCoverage :=
  ⟨{10, 20, 200}, ∅,
   [⟨{10}, none, ∅, ∅, ∅⟩, ⟨{20}, some 200, ∅, ∅, ∅⟩], 3⟩

/-- Build data holding `fnEx` under contract `Token`, source `token.sol`. -/
def mapEx : CoverageMap := [("Token", [("token.sol", [("transfer", fnEx)])])]

/-- `fnEx` after recording `trEx`: both lines hit by run 1 and the branch
observed only on its true outcome. -/
def fnC2 : FnCoverage :=
  ⟨{10, 20, 200}, {1},
   [⟨{10}, none, {1}, ∅, ∅⟩, ⟨{20}, some 200, {1}, {1}, ∅⟩], 3⟩

/-- One run that hits both lines and then takes the conditional jump
(the instruction after the JUMPI at pc 200 is at pc 250, not 201). -/
def trEx : Trace :=
  ⟨1, true, [⟨10, "PUSH1", "Token", "token.sol"⟩,
             ⟨20, "DUP1", "Token", "token.sol"⟩,
             ⟨200, "JUMPI", "Token", "token.sol"⟩,
             ⟨250, "JUMPDEST", "Token", "token.sol"⟩]⟩

instance instrOkDecidable (build : CoverageMap) (i : Instr) :
    Decidable (instrOk build i) := by
  unfold instrOk
  infer_instance

instance traceEndOkDecidable (t : Trace) : Decidable (traceEndOk t) := by
  unfold traceEndOk
  infer_instance

instance weightsOkDecidable (m : CoverageMap) : Decidable (weightsOk m) := by
  unfold weightsOk
  infer_instance

/-- Build data for the order-independence witness: one contract, one source,
one function with a single non-branching line of weight 1. -/
def mapW : CoverageMap :=
  [("T", [("s", [("f", ⟨{10}, ∅, [⟨{10}, none, ∅, ∅, ∅⟩], 1⟩)])])]

/-- First witness run hitting the single line. -/
def trW1 : Trace := ⟨1, true, [⟨10, "PUSH1", "T", "s"⟩]⟩

/-- Second witness run hitting the single line. -/
def trW2 : Trace := ⟨2, true, [⟨10, "PUSH1", "T", "s"⟩]⟩

/-! ## Helper lemmas on the list combinators -/

theorem atFirst_append {α : Type} (p : α → Bool) (f : α → Except Err α)
    (pre l : List α) (h : ∀ x ∈ pre, p x = false) :
    atFirst p f (pre ++ l) = (atFirst p f l).map (fun ys => pre ++ ys) := by
  induction pre with
  | nil => cases hr : atFirst p f l <;> simp [Except.map, hr]
  | cons x rest ih =>
    have hx : p x = false := h x (List.mem_cons_self _ _)
    rw [List.cons_append, atFirst, if_neg (by simp [hx])]
    rw [ih (fun y hy => h y (List.mem_cons_of_mem _ hy))]
    cases hr : atFirst p f l <;> simp [Except.map, hr]

theorem atFirst_none {α : Type} (p : α → Bool) (f : α → Except Err α)
    (l : List α) (h : ∀ x ∈ l, p x = false) : atFirst p f l = .ok l := by
  induction l with
  | nil => rfl
  | cons x rest ih =>
    rw [atFirst, if_neg (by simp [h x (List.mem_cons_self _ _)])]
    rw [ih (fun y hy => h y (List.mem_cons_of_mem _ hy))]
    rfl

theorem atKeyThrow_append {α : Type} (k : String) (f : α → Except Err α)
    (pre rest : List (String × α)) (v : α) (h : ∀ q ∈ pre, q.1 ≠ k) :
    atKeyThrow k f (pre ++ (k, v) :: rest) =
      (f v).map (fun v' => pre ++ (k, v') :: rest) := by
  induction pre with
  | nil =>
    rw [List.nil_append, atKeyThrow, if_pos rfl]
    cases hr : f v <;> simp [Except.map, hr]
  | cons q qs ih =>
    rw [List.cons_append, atKeyThrow, if_neg (h q (List.mem_cons_self _ _))]
    rw [ih (fun y hy => h y (List.mem_cons_of_mem _ hy))]
    cases hr : f v <;> simp [Except.map, hr]

theorem exceptMap_ok {α β : Type} {g : α → β} {x : Except Err α} {b : β}
    (h : x.map g = .ok b) : ∃ a, x = .ok a ∧ g a = b := by
  cases x with
  | error e => simp [Except.map] at h
  | ok a =>
    refine ⟨a, rfl, ?_⟩
    simpa [Except.map] using h

theorem atFirst_mem {α : Type} (p : α → Bool) (f : α → Except Err α)
    (l l' : List α) (h : atFirst p f l = .ok l') :
    ∀ x ∈ l', x ∈ l ∨ ∃ x₀ ∈ l, f x₀ = .ok x := by
  induction l generalizing l' with
  | nil =>
    rw [atFirst] at h
    cases h
    intro x hx
    cases hx
  | cons y ys ih =>
    rw [atFirst] at h
    by_cases hp : p y
    · rw [if_pos hp] at h
      obtain ⟨fy, hfy, hl'⟩ := exceptMap_ok h
      subst hl'
      intro x hx
      rcases List.mem_cons.mp hx with rfl | hxs
      · exact Or.inr ⟨y, List.mem_cons_self _ _, hfy⟩
      · exact Or.inl (List.mem_cons_of_mem _ hxs)
    · rw [if_neg hp] at h
      obtain ⟨ys', hys', hl'⟩ := exceptMap_ok h
      subst hl'
      intro x hx
      rcases List.mem_cons.mp hx with rfl | hxs
      · exact Or.inl (List.mem_cons_self _ _)
      · rcases ih ys' hys' x hxs with hmem | ⟨x₀, hx₀, hfx⟩
        · exact Or.inl (List.mem_cons_of_mem _ hmem)
        · exact Or.inr ⟨x₀, List.mem_cons_of_mem _ hx₀, hfx⟩

theorem atKeyThrow_mem {α : Type} (k : String) (f : α → Except Err α)
    (m m' : List (String × α)) (h : atKeyThrow k f m = .ok m') :
    ∀ q ∈ m', q ∈ m ∨ ∃ v₀, (q.1, v₀) ∈ m ∧ f v₀ = .ok q.2 := by
  induction m generalizing m' with
  | nil =>
    rw [atKeyThrow] at h
    cases h
  | cons y ys ih =>
    obtain ⟨ky, vy⟩ := y
    rw [atKeyThrow] at h
    by_cases hk : ky = k
    · rw [if_pos hk] at h
      obtain ⟨v', hv', hl'⟩ := exceptMap_ok h
      subst hl'
      intro q hq
      rcases List.mem_cons.mp hq with rfl | hqs
      · exact Or.inr ⟨vy, List.mem_cons_self _ _, hv'⟩
      · exact Or.inl (List.mem_cons_of_mem _ hqs)
    · rw [if_neg hk] at h
      obtain ⟨ys', hys', hl'⟩ := exceptMap_ok h
      subst hl'
      intro q hq
      rcases List.mem_cons.mp hq with rfl | hqs
      · exact Or.inl (List.mem_cons_self _ _)
      · rcases ih ys' hys' q hqs with hmem | ⟨v₀, hv₀, hfv⟩
        · exact Or.inl (List.mem_cons_of_mem _ hmem)
        · exact Or.inr ⟨v₀, List.mem_cons_of_mem _ hv₀, hfv⟩

theorem lineHit_inv (r : RunId) (ln : LineRecord) (h : lineInv ln) :
    lineInv (lineHit r ln) := by
  intro x hx
  exact Finset.mem_insert_of_mem (h hx)

theorem jumpStep_inv (r : RunId) (pc : Nat) (n? : Option Nat)
    (ln ln' : LineRecord) (h : lineInv ln)
    (heq : jumpStep r pc n? ln = .ok ln') : lineInv ln' := by
  rw [jumpStep.eq_def] at heq
  split at heq
  · cases heq
    exact h
  · rename_i hm
    push_neg at hm
    split at heq
    · cases heq
    · split at heq
      · cases heq
        intro x hx
        rcases Finset.mem_union.mp hx with hxt | hxf
        · exact h (Finset.mem_union_left _ hxt)
        · rcases Finset.mem_insert.mp hxf with rfl | hxf'
          · exact hm
          · exact h (Finset.mem_union_right _ hxf')
      · cases heq
        intro x hx
        rcases Finset.mem_union.mp hx with hxt | hxf
        · rcases Finset.mem_insert.mp hxt with rfl | hxt'
          · exact hm
          · exact h (Finset.mem_union_left _ hxt')
        · exact h (Finset.mem_union_right _ hxf)

theorem applyFn_inv (r : RunId) (ins : Instr) (n? : Option Nat)
    (fn fn' : FnCoverage) (h : ∀ ln ∈ fn.line, lineInv ln)
    (heq : applyFn r ins n? fn = .ok fn') : ∀ ln ∈ fn'.line, lineInv ln := by
  rw [applyFn, lineOp] at heq
  by_cases hop : ins.op = "JUMPI"
  · rw [if_pos hop] at heq
    obtain ⟨lns, hlns, hfn'⟩ := exceptMap_ok heq
    subst hfn'
    intro ln hln
    rcases atFirst_mem _ _ _ _ hlns ln hln with hmem | ⟨ln₀, hln₀, hf⟩
    · exact h ln hmem
    · exact jumpStep_inv _ _ _ _ _ (h ln₀ hln₀) hf
  · rw [if_neg hop] at heq
    obtain ⟨lns, hlns, hfn'⟩ := exceptMap_ok heq
    subst hfn'
    intro ln hln
    rcases atFirst_mem _ _ _ _ hlns ln hln with hmem | ⟨ln₀, hln₀, hf⟩
    · exact h ln hmem
    · cases hf
      exact lineHit_inv _ _ (h ln₀ hln₀)

theorem jumpStep_skip (r : RunId) (pc : Nat) (n? : Option Nat)
    (ln : LineRecord) (h : r ∉ ln.tx) : jumpStep r pc n? ln = .ok ln := by
  rw [jumpStep.eq_def, if_pos h]

theorem jumpStep_none_err (r : RunId) (pc : Nat) (ln : LineRecord)
    (h : r ∈ ln.tx) : jumpStep r pc none ln = .error .indexError := by
  rw [jumpStep.eq_def, if_neg (by simpa using h)]

theorem jumpStep_fa (r : RunId) (pc npc : Nat) (ln : LineRecord)
    (h : r ∈ ln.tx) (hn : npc = pc + 1) :
    jumpStep r pc (some npc) ln = .ok { ln with fa := insert r ln.fa } := by
  rw [jumpStep.eq_def, if_neg (by simpa using h)]
  simp [hn]

theorem jumpStep_tr (r : RunId) (pc npc : Nat) (ln : LineRecord)
    (h : r ∈ ln.tx) (hn : ¬npc = pc + 1) :
    jumpStep r pc (some npc) ln = .ok { ln with tr := insert r ln.tr } := by
  rw [jumpStep.eq_def, if_neg (by simpa using h)]
  simp [hn]

/-- The fields of a line record that `jumpStep` never changes. -/
theorem jumpStep_fields (r : RunId) (pc : Nat) (n? : Option Nat)
    (ln ln' : LineRecord) (h : jumpStep r pc n? ln = .ok ln') :
    ln'.pc = ln.pc ∧ ln'.jump = ln.jump ∧ ln'.tx = ln.tx := by
  rw [jumpStep.eq_def] at h
  split at h
  · cases h; exact ⟨rfl, rfl, rfl⟩
  · split at h
    · cases h
    · split at h <;> (cases h; exact ⟨rfl, rfl, rfl⟩)

theorem evalLoop_all_empty (lns : List LineRecord) (c : Nat) (acc : EvalAcc)
    (h : ∀ ln ∈ lns, ln.tx = ∅) : evalLoop c lns acc = acc := by
  induction lns generalizing c acc with
  | nil => rfl
  | cons ln rest ih =>
    rw [evalLoop, evalStep, if_pos (h ln (List.mem_cons_self _ _))]
    exact ih (c + 1) acc (fun l hl => h l (List.mem_cons_of_mem _ hl))

/-! ## The claims -/

/-- C10: a branching line (jump pc present) whose hit set is non-empty but
whose true/false sets are both empty adds 0 to the function's score and its
index is put into none of the `line`/`true`/`false` result sets: the
evaluator's per-line accumulation step leaves the accumulator unchanged. -/
theorem c10 (acc : EvalAcc) (c : Nat) (ln : LineRecord) (j : Nat)
    (hj : ln.jump = some j) (htx : ln.tx ≠ ∅)
    (htr : ln.tr = ∅) (hfa : ln.fa = ∅) :
    evalStep acc c ln = acc := by
  rw [evalStep, if_neg htx, hj]
  simp [htr, hfa]

theorem c10_witness :
    evalStep ⟨0, ∅, ∅, ∅⟩ 1 ⟨{20}, some 200, {1}, ∅, ∅⟩ = ⟨0, ∅, ∅, ∅⟩ :=
  c10 ⟨0, ∅, ∅, ∅⟩ 1 ⟨{20}, some 200, {1}, ∅, ∅⟩ 200 rfl (by decide) rfl rfl

/-- C7: a function in which every line record has an empty hit set evaluates
to exactly `{'pct': 0}`, whether or not the function-level run set `fn['tx']`
is empty. -/
theorem c7 (f : FnCoverage) (h : ∀ ln ∈ f.line, ln.tx = ∅) :
    evalFn f = .ok (.bare 0) := by
  have hc : f.line.all (fun ln => decide (ln.tx = ∅)) = true := by
    simp only [List.all_eq_true, decide_eq_true_eq]
    exact h
  by_cases hfn : f.fnTx = ∅
  · rw [evalFn, if_pos hfn]
  · rw [evalFn, if_neg hfn, if_pos hc]

theorem c7_witness :
    evalFn ⟨{20, 200}, {1}, [⟨{20}, some 200, ∅, ∅, ∅⟩], 3⟩ =
      .ok (.bare 0) :=
  c7 ⟨{20, 200}, {1}, [⟨{20}, some 200, ∅, ∅, ∅⟩], 3⟩ (by decide)

/-- C6: when the accumulated score equals the function's total weight exactly
(and the function was reached at all: non-empty `fn['tx']` and a non-zero
total), the evaluator's result is exactly `{'pct': 1}` with no detail sets. -/
theorem c6 (f : FnCoverage) (h1 : f.fnTx ≠ ∅)
    (h2 : (evalAccum f.line).count = f.total) (h3 : f.total ≠ 0) :
    evalFn f = .ok (.bare 1) := by
  have hall : ¬(f.line.all (fun ln => decide (ln.tx = ∅)) = true) := by
    intro hc
    have hc' : ∀ ln ∈ f.line, ln.tx = ∅ := by
      simpa only [List.all_eq_true, decide_eq_true_eq] using hc
    have h0 : evalAccum f.line = ⟨0, ∅, ∅, ∅⟩ :=
      evalLoop_all_empty f.line 0 ⟨0, ∅, ∅, ∅⟩ hc'
    rw [h0] at h2
    exact h3 h2.symm
  rw [evalFn, if_neg h1, if_neg hall, if_neg h3, if_pos h2]

theorem c6_witness :
    evalFn ⟨{10}, {1}, [⟨{10}, none, {1}, ∅, ∅⟩], 1⟩ = .ok (.bare 1) :=
  c6 ⟨{10}, {1}, [⟨{10}, none, {1}, ∅, ∅⟩], 1⟩ (by decide) (by decide)
    (by decide)

/-- C1: for a JUMPI instruction whose pc matches the owning function's line
record with that jump pc (the first such line), the recorder classifies the
outcome by the next instruction in the same trace when the run is already in
the line's hit set — run into `false` if the next pc is `pc+1`, into `true`
otherwise — and records nothing on the line when the run is not yet in the
hit set (only the function-level `fn['tx']` gains the run either way). -/
theorem c1 (r : RunId) (ins : Instr) (npc : Nat) (fn : FnCoverage)
    (lpre lpost : List LineRecord) (ln : LineRecord)
    (hop : ins.op = "JUMPI")
    (hdec : fn.line = lpre ++ ln :: lpost)
    (hpre : ∀ l ∈ lpre, l.jump ≠ some ins.pc)
    (hln : ln.jump = some ins.pc) :
    (r ∈ ln.tx →
      (npc = ins.pc + 1 →
        applyFn r ins (some npc) fn =
          .ok { fn with fnTx := insert r fn.fnTx,
                        line := lpre ++ { ln with fa := insert r ln.fa } :: lpost }) ∧
      (npc ≠ ins.pc + 1 →
        applyFn r ins (some npc) fn =
          .ok { fn with fnTx := insert r fn.fnTx,
                        line := lpre ++ { ln with tr := insert r ln.tr } :: lpost })) ∧
    (r ∉ ln.tx →
      applyFn r ins (some npc) fn =
        .ok { fn with fnTx := insert r fn.fnTx }) := by
  have hkey : applyFn r ins (some npc) fn =
      (atFirst (fun l => decide (l.jump = some ins.pc))
          (jumpStep r ins.pc (some npc)) (lpre ++ ln :: lpost)).map
        (fun lns => { fn with fnTx := insert r fn.fnTx, line := lns }) := by
    rw [applyFn, lineOp, if_pos hop, hdec]
  rw [atFirst_append _ _ lpre (ln :: lpost)
    (fun l hl => by simp [hpre l hl])] at hkey
  rw [atFirst, if_pos (by simp [hln])] at hkey
  refine ⟨fun hmem => ⟨fun heq => ?_, fun hne => ?_⟩, fun hnm => ?_⟩
  · rw [hkey, jumpStep, if_neg (by simp [hmem]), if_pos heq]
    simp [Except.map]
  · rw [hkey, jumpStep, if_neg (by simp [hmem]), if_neg hne]
    simp [Except.map]
  · rw [hkey, jumpStep, if_pos hnm]
    simp [Except.map, hdec]

theorem c1_witness :
    applyFn 1 ⟨200, "JUMPI", "C", "s"⟩ (some 300) fnJEx =
      .ok { fnJEx with fnTx := insert 1 fnJEx.fnTx,
                       line := [] ++ { lnJEx with tr := insert 1 lnJEx.tr } :: [] } :=
  ((c1 1 ⟨200, "JUMPI", "C", "s"⟩ 300 fnJEx [] [] lnJEx rfl rfl
      (by simp) rfl).1 (by decide)).2 (by decide)

/-- C2: the spec's worked example.  A function with a non-branching line 0
(weight 1) and a branching line 1 (weight 2, jump pc 200), after one run
that hits line 0 and observes only the true outcome of line 1's branch,
evaluates to `line={0}`, `true={1}`, `false={}` and `pct = 0.67`
(score 2 of total 3, rounded to two decimals). -/
theorem c2 :
    runCoverage mapEx [trEx] =
      .ok [("Token", [("token.sol",
        [("transfer", CovResult.detail {0} {1} ∅ (67/100))])])] := by
  have h1 : recordTraces [trEx] ⟨∅, mapEx⟩ =
      .ok ⟨{"Token"}, [("Token", [("token.sol", [("transfer", fnC2)])])]⟩ := by
    decide
  have h2 : evalFn fnC2 = .ok (.detail {0} {1} ∅ (67/100)) := by
    have ha : evalAccum fnC2.line = ⟨2, {0}, {1}, ∅⟩ := by decide
    rw [evalFn, if_neg (by decide), if_neg (by decide), if_neg (by decide),
      if_neg (by rw [ha]; decide), ha]
    have hr : round2 (((2 : ℕ) : ℚ) / ((3 : ℕ) : ℚ)) = 67 / 100 := by
      norm_num [round2, round_eq]
    rw [show fnC2.total = 3 from rfl, hr]
  rw [runCoverage, h1]
  have h3 : buildReport ⟨{"Token"}, [("Token", [("token.sol",
      [("transfer", fnC2)])])]⟩ =
      (evalFn fnC2).map (fun c => [("Token", [("token.sol",
        [("transfer", c)])])]) := rfl
  show buildReport _ = _
  rw [h3, h2]
  rfl

/-- C5: every single-instruction recording step preserves the invariant that
a run recorded in a line's `true`/`false` set is already in that line's hit
set, over every line record of every function in the state. -/
theorem c5 (r : RunId) (ins : Instr) (n? : Option Nat) (st st' : RecState)
    (hinv : stateInv st) (heq : recordInstr r ins n? st = .ok st') :
    stateInv st' := by
  rw [recordInstr] at heq
  by_cases hskip : ins.contractName = "" ∨ ins.source = ""
  · rw [if_pos hskip] at heq
    cases heq
    exact hinv
  · rw [if_neg hskip] at heq
    obtain ⟨m', hm', hst'⟩ := exceptMap_ok heq
    subst hst'
    intro q hq s hs g hg ln hln
    rcases atKeyThrow_mem _ _ _ _ hm' q hq with hqm | ⟨v₀, hv₀, hfv⟩
    · exact hinv q hqm s hs g hg ln hln
    · rcases atKeyThrow_mem _ _ _ _ hfv s hs with hsm | ⟨w₀, hw₀, hfw⟩
      · exact hinv (q.1, v₀) hv₀ s hsm g hg ln hln
      · rcases atFirst_mem _ _ _ _ hfw g hg with hgm | ⟨g₀, hg₀, hfg⟩
        · exact hinv (q.1, v₀) hv₀ (s.1, w₀) hw₀ g hgm ln hln
        · obtain ⟨fn', hfn', hgeq⟩ := exceptMap_ok hfg
          have hlines := applyFn_inv r ins n? g₀.2 fn'
            (fun l hl => hinv (q.1, v₀) hv₀ (s.1, w₀) hw₀ g₀ hg₀ l hl) hfn'
          rw [← hgeq] at hln
          exact hlines ln hln

theorem c5_witness :
    stateInv ⟨{"Token"}, [("Token", [("token.sol", [("transfer",
      ⟨{10, 20, 200}, {1}, [⟨{10}, none, {1}, ∅, ∅⟩,
        ⟨{20}, some 200, ∅, ∅, ∅⟩], 3⟩)])])]⟩ :=
  c5 1 ⟨10, "PUSH1", "Token", "token.sol"⟩ (some 20) ⟨∅, mapEx⟩
    ⟨{"Token"}, [("Token", [("token.sol", [("transfer",
      ⟨{10, 20, 200}, {1}, [⟨{10}, none, {1}, ∅, ∅⟩,
        ⟨{20}, some 200, ∅, ∅, ∅⟩], 3⟩)])])]⟩
    (by decide) (by decide)

/-- C9: two bytecode strings that agree except on their trailing 68-character
metadata suffix produce identical content hashes once the suffix is stripped
(`bytecode[:-68]`, line 172), for any hash function applied to the stripped
bytecode. -/
theorem c9 {α : Type} (hash : List Char → α) (p m1 m2 : List Char)
    (h1 : m1.length = 68) (h2 : m2.length = 68) :
    hash (stripMetadata (p ++ m1)) = hash (stripMetadata (p ++ m2)) := by
  have e : ∀ m : List Char, m.length = 68 → stripMetadata (p ++ m) = p := by
    intro m hm
    rw [stripMetadata, List.length_append, hm, Nat.add_sub_cancel]
    exact List.take_left p m
  rw [e m1 h1, e m2 h2]

theorem c9_witness :
    (fun l : List Char => l.length)
        (stripMetadata (['a'] ++ List.replicate 68 'b')) =
      (fun l : List Char => l.length)
        (stripMetadata (['a'] ++ List.replicate 68 'c')) :=
  c9 (fun l => l.length) ['a'] (List.replicate 68 'b') (List.replicate 68 'c')
    (by simp) (by simp)

/-! ## Static-skeleton preservation and totality, for the amended C3 -/

theorem atFirst_map_pres {α β : Type} (p : α → Bool) (f : α → Except Err α)
    (h : α → β) (hf : ∀ x y, f x = .ok y → h y = h x) :
    ∀ (l l' : List α), atFirst p f l = .ok l' → l'.map h = l.map h := by
  intro l
  induction l with
  | nil =>
    intro l' heq
    rw [atFirst] at heq
    cases heq
    rfl
  | cons x xs ih =>
    intro l' heq
    rw [atFirst] at heq
    by_cases hp : p x
    · rw [if_pos hp] at heq
      obtain ⟨fx, hfx, he⟩ := exceptMap_ok heq
      subst he
      simp [hf x fx hfx]
    · rw [if_neg hp] at heq
      obtain ⟨xs', hxs', he⟩ := exceptMap_ok heq
      subst he
      simp [ih xs' hxs']

theorem atKeyThrow_map_pres {α β : Type} (k : String) (f : α → Except Err α)
    (h : α → β) (hf : ∀ v v', f v = .ok v' → h v' = h v) :
    ∀ (m m' : List (String × α)), atKeyThrow k f m = .ok m' →
      m'.map (fun q => (q.1, h q.2)) = m.map (fun q => (q.1, h q.2)) := by
  intro m
  induction m with
  | nil =>
    intro m' heq
    rw [atKeyThrow] at heq
    cases heq
  | cons y ys ih =>
    intro m' heq
    obtain ⟨ky, vy⟩ := y
    rw [atKeyThrow] at heq
    by_cases h1 : ky = k
    · rw [if_pos h1] at heq
      obtain ⟨v', hv', he⟩ := exceptMap_ok heq
      subst he
      simp [hf vy v' hv']
    · rw [if_neg h1] at heq
      obtain ⟨ys', hys', he⟩ := exceptMap_ok heq
      subst he
      simp [ih ys' hys']

theorem jumpStep_lineStatic (r : RunId) (pc : Nat) (n? : Option Nat)
    (ln ln' : LineRecord) (h : jumpStep r pc n? ln = .ok ln') :
    lineStatic ln' = lineStatic ln := by
  obtain ⟨h1, h2, -⟩ := jumpStep_fields _ _ _ _ _ h
  rw [lineStatic, lineStatic, h1, h2]

theorem lineOp_static (r : RunId) (ins : Instr) (n? : Option Nat)
    (l l' : List LineRecord) (heq : lineOp r ins n? l = .ok l') :
    l'.map lineStatic = l.map lineStatic := by
  rw [lineOp] at heq
  by_cases hop : ins.op = "JUMPI"
  · rw [if_pos hop] at heq
    exact atFirst_map_pres _ _ _
      (fun x y h => jumpStep_lineStatic _ _ _ _ _ h) l l' heq
  · rw [if_neg hop] at heq
    exact atFirst_map_pres _ _ _ (fun x y h => by cases h; rfl) l l' heq

theorem applyFn_static (r : RunId) (i : Instr) (n? : Option Nat)
    (fn fn' : FnCoverage) (h : applyFn r i n? fn = .ok fn') :
    fnStatic fn' = fnStatic fn := by
  rw [applyFn] at h
  obtain ⟨l, hl, he⟩ := exceptMap_ok h
  subst he
  rw [fnStatic, fnStatic]
  show (fn.fnPc, fn.total, l.map lineStatic) = _
  rw [lineOp_static _ _ _ _ _ hl]

/-- A successful recording step never changes the static skeleton of the
coverage map. -/
theorem recordInstr_static (r : RunId) (i : Instr) (n? : Option Nat)
    (st st' : RecState) (h : recordInstr r i n? st = .ok st') :
    mapStatic st'.covMap = mapStatic st.covMap := by
  rw [recordInstr] at h
  by_cases hs : i.contractName = "" ∨ i.source = ""
  · rw [if_pos hs] at h
    cases h
    rfl
  · rw [if_neg hs] at h
    obtain ⟨m', hm', he⟩ := exceptMap_ok h
    subst he
    show mapStatic m' = _
    simp only [mapStatic]
    refine atKeyThrow_map_pres _ _ cmStatic ?_ st.covMap m' hm'
    intro v v' hv
    simp only [cmStatic]
    refine atKeyThrow_map_pres _ _ srcStatic ?_ v v' hv
    intro w w' hw
    simp only [srcStatic]
    refine atFirst_map_pres _ _ (fun q => (q.1, fnStatic q.2)) ?_ w w' hw
    intro x y hx
    replace hx : (applyFn r i n? x.2).map (fun v => (x.1, v)) = .ok y := hx
    obtain ⟨fv, hfv, hyv⟩ := exceptMap_ok hx
    subst hyv
    simp [applyFn_static _ _ _ _ _ hfv]

theorem lookupA_map {α β : Type} (h : α → β) (m : List (String × α))
    (k : String) :
    lookupA (m.map (fun q => (q.1, h q.2))) k = (lookupA m k).map h := by
  induction m with
  | nil => rfl
  | cons y ys ih =>
    obtain ⟨ky, vy⟩ := y
    by_cases hk : ky = k <;> simp [lookupA, hk, ih]

/-- Presence of a contract/source pair is determined by the static
skeleton. -/
theorem lookup2_static (m m' : CoverageMap) (hs : mapStatic m = mapStatic m')
    (c s : String) :
    ((lookupA m c).bind (fun cm => lookupA cm s)).isSome =
      ((lookupA m' c).bind (fun cm => lookupA cm s)).isSome := by
  have h1 : (lookupA m c).map cmStatic = (lookupA m' c).map cmStatic := by
    rw [← lookupA_map cmStatic m c, ← lookupA_map cmStatic m' c]
    simp only [mapStatic] at hs
    rw [hs]
  cases hm : lookupA m c with
  | none =>
    rw [hm] at h1
    cases hm' : lookupA m' c with
    | none => rfl
    | some cm' => rw [hm'] at h1; cases h1
  | some cm =>
    rw [hm] at h1
    cases hm' : lookupA m' c with
    | none => rw [hm'] at h1; cases h1
    | some cm' =>
      rw [hm'] at h1
      have h2 : cmStatic cm = cmStatic cm' := by
        injection h1
      have h3 : (lookupA cm s).map srcStatic = (lookupA cm' s).map srcStatic := by
        rw [← lookupA_map srcStatic cm s, ← lookupA_map srcStatic cm' s]
        simp only [cmStatic] at h2
        rw [h2]
      show (lookupA cm s).isSome = (lookupA cm' s).isSome
      cases hcm : lookupA cm s <;> cases hcm' : lookupA cm' s <;>
        rw [hcm, hcm'] at h3 <;> first | rfl | cases h3

theorem atFirst_total {α : Type} (p : α → Bool) (f : α → Except Err α)
    (l : List α) (hf : ∀ x ∈ l, ∃ y, f x = .ok y) :
    ∃ l', atFirst p f l = .ok l' := by
  induction l with
  | nil => exact ⟨[], rfl⟩
  | cons x xs ih =>
    by_cases hp : p x
    · obtain ⟨y, hy⟩ := hf x (List.mem_cons_self _ _)
      exact ⟨y :: xs, by rw [atFirst, if_pos hp, hy]; rfl⟩
    · obtain ⟨xs', hxs'⟩ := ih (fun z hz => hf z (List.mem_cons_of_mem _ hz))
      exact ⟨x :: xs', by rw [atFirst, if_neg hp, hxs']; rfl⟩

theorem atKeyThrow_total {α : Type} (k : String) (f : α → Except Err α)
    (m : List (String × α))
    (h : ∃ v, lookupA m k = some v ∧ ∃ v', f v = .ok v') :
    ∃ m', atKeyThrow k f m = .ok m' := by
  induction m with
  | nil =>
    obtain ⟨v, hv, -⟩ := h
    cases hv
  | cons y ys ih =>
    obtain ⟨ky, vy⟩ := y
    obtain ⟨v, hv, v', hv'⟩ := h
    by_cases hk : ky = k
    · rw [lookupA, if_pos hk] at hv
      cases hv
      exact ⟨_, by rw [atKeyThrow, if_pos hk, hv']; rfl⟩
    · rw [lookupA, if_neg hk] at hv
      obtain ⟨ys', hys'⟩ := ih ⟨v, hv, v', hv'⟩
      exact ⟨_, by rw [atKeyThrow, if_neg hk, hys']; rfl⟩

theorem jumpStep_total (r : RunId) (pc npc : Nat) (ln : LineRecord) :
    ∃ ln', jumpStep r pc (some npc) ln = .ok ln' := by
  by_cases hm : r ∈ ln.tx
  · by_cases hn : npc = pc + 1
    · exact ⟨_, jumpStep_fa _ _ _ _ hm hn⟩
    · exact ⟨_, jumpStep_tr _ _ _ _ hm hn⟩
  · exact ⟨ln, jumpStep_skip _ _ _ _ hm⟩

theorem applyFn_total (r : RunId) (ins : Instr) (n? : Option Nat)
    (fn : FnCoverage) (h : n? = none → ins.op ≠ "JUMPI") :
    ∃ fn', applyFn r ins n? fn = .ok fn' := by
  rw [applyFn, lineOp]
  by_cases hop : ins.op = "JUMPI"
  · rw [if_pos hop]
    cases n? with
    | none => exact absurd hop (h rfl)
    | some npc =>
      obtain ⟨l', hl'⟩ := atFirst_total _ _ fn.line
        (fun x _ => jumpStep_total r ins.pc npc x)
      exact ⟨_, by rw [hl']; rfl⟩
  · rw [if_neg hop]
    obtain ⟨l', hl'⟩ := atFirst_total _ _ fn.line (fun x _ => ⟨_, rfl⟩)
    exact ⟨_, by rw [hl']; rfl⟩

/-- A recording step succeeds whenever the instruction is attributable in the
current map and a missing successor only happens on non-JUMPI opcodes. -/
theorem recordInstr_total (r : RunId) (ins : Instr) (n? : Option Nat)
    (st : RecState)
    (hok : ins.contractName = "" ∨ ins.source = "" ∨
      ((lookupA st.covMap ins.contractName).bind
        (fun cm => lookupA cm ins.source)).isSome = true)
    (hjump : n? = none → ins.op ≠ "JUMPI") :
    ∃ st', recordInstr r ins n? st = .ok st' := by
  by_cases hs : ins.contractName = "" ∨ ins.source = ""
  · exact ⟨st, by rw [recordInstr, if_pos hs]⟩
  · push_neg at hs
    rcases hok with h | h | h
    · exact absurd h hs.1
    · exact absurd h hs.2
    · cases hm : lookupA st.covMap ins.contractName with
      | none => rw [hm] at h; cases h
      | some cm =>
        rw [hm] at h
        replace h : (lookupA cm ins.source).isSome = true := h
        cases hcm : lookupA cm ins.source with
        | none => rw [hcm] at h; cases h
        | some fns =>
          obtain ⟨fns', hfns'⟩ := atFirst_total
            (fun q : String × FnCoverage => decide (ins.pc ∈ q.2.fnPc))
            (fun q => (applyFn r ins n? q.2).map (fun fn' => (q.1, fn'))) fns
            (fun q _ => by
              obtain ⟨fn', hfn'⟩ := applyFn_total r ins n? q.2 hjump
              refine ⟨(q.1, fn'), ?_⟩
              show (applyFn r ins n? q.2).map (fun fn' => (q.1, fn')) = _
              rw [hfn']
              rfl)
          obtain ⟨cm', hcm2⟩ := atKeyThrow_total ins.source _ cm
            ⟨fns, hcm, fns', hfns'⟩
          obtain ⟨m', hm2⟩ := atKeyThrow_total ins.contractName _ st.covMap
            ⟨cm, hm, cm', hcm2⟩
          refine ⟨⟨insert ins.contractName st.loaded, m'⟩, ?_⟩
          rw [recordInstr, if_neg (by push_neg; exact hs), hm2]
          rfl

/-- Recording one whole trace succeeds and preserves the static skeleton,
given attributable instructions and a non-JUMPI final instruction. -/
theorem recordTrace_total (build : CoverageMap) (r : RunId) :
    ∀ (l : List Instr) (st : RecState),
      mapStatic st.covMap = mapStatic build →
      (∀ i ∈ l, instrOk build i) →
      (l.getLast?).all (fun i => decide (i.op ≠ "JUMPI")) = true →
      ∃ st', recordTrace r l st = .ok st' ∧
        mapStatic st'.covMap = mapStatic build := by
  intro l
  induction l with
  | nil =>
    intro st hstat _ _
    exact ⟨st, rfl, hstat⟩
  | cons i rest ih =>
    intro st hstat hins hlast
    have hok : i.contractName = "" ∨ i.source = "" ∨
        ((lookupA st.covMap i.contractName).bind
          (fun cm => lookupA cm i.source)).isSome = true := by
      rcases hins i (List.mem_cons_self _ _) with h | h | h
      · exact Or.inl h
      · exact Or.inr (Or.inl h)
      · exact Or.inr (Or.inr (by
          rw [lookup2_static st.covMap build hstat]
          exact h))
    have hjump : ((rest.head?).map (fun i => i.pc)) = none →
        i.op ≠ "JUMPI" := by
      intro hn
      cases rest with
      | nil =>
        have hl : (some i).all (fun i => decide (i.op ≠ "JUMPI")) = true := by
          simpa using hlast
        simpa using hl
      | cons j js => simp at hn
    obtain ⟨st1, hst1⟩ := recordInstr_total r i _ st hok hjump
    have hstat1 : mapStatic st1.covMap = mapStatic build := by
      rw [recordInstr_static _ _ _ _ _ hst1]
      exact hstat
    have hins' : ∀ j ∈ rest, instrOk build j :=
      fun j hj => hins j (List.mem_cons_of_mem _ hj)
    have hlast' : (rest.getLast?).all (fun i => decide (i.op ≠ "JUMPI")) = true := by
      cases rest with
      | nil => rfl
      | cons j js =>
        rw [List.getLast?_cons_cons] at hlast
        exact hlast
    obtain ⟨st', hrec, hstat'⟩ := ih st1 hstat1 hins' hlast'
    refine ⟨st', ?_, hstat'⟩
    rw [recordTrace, hst1]
    exact hrec

/-- Recording a whole history succeeds and preserves the static skeleton. -/
theorem recordTraces_total (build : CoverageMap) :
    ∀ (l : List Trace) (st : RecState),
      mapStatic st.covMap = mapStatic build →
      (∀ t ∈ l, (∀ i ∈ t.ins, instrOk build i) ∧ traceEndOk t) →
      ∃ st', recordTraces l st = .ok st' ∧
        mapStatic st'.covMap = mapStatic build := by
  intro l
  induction l with
  | nil =>
    intro st hstat _
    exact ⟨st, rfl, hstat⟩
  | cons t rest ih =>
    intro st hstat hl
    obtain ⟨hins, hend⟩ := hl t (List.mem_cons_self _ _)
    have hrest : ∀ u ∈ rest, (∀ i ∈ u.ins, instrOk build i) ∧ traceEndOk u :=
      fun u hu => hl u (List.mem_cons_of_mem _ hu)
    by_cases hr : t.receiver
    · obtain ⟨st1, hst1, hstat1⟩ :=
        recordTrace_total build t.run t.ins st hstat hins hend
      obtain ⟨st', hst', hstat'⟩ := ih st1 hstat1 hrest
      refine ⟨st', ?_, hstat'⟩
      rw [recordTraces, traceOp, if_pos hr, hst1]
      exact hst'
    · obtain ⟨st', hst', hstat'⟩ := ih st hstat hrest
      refine ⟨st', ?_, hstat'⟩
      rw [recordTraces, traceOp, if_neg hr]
      exact hst'

theorem totalWeight_pos (lns : List LineRecord) (h : lns ≠ []) :
    totalWeight lns ≠ 0 := by
  cases lns with
  | nil => exact absurd rfl h
  | cons x xs =>
    have hx : lineWeight x ≠ 0 := by
      rw [lineWeight.eq_def]
      cases x.jump <;> simp
    simp only [totalWeight, List.map_cons, List.sum_cons]
    omega

theorem evalFn_total (f : FnCoverage) (hw : f.total = totalWeight f.line) :
    ∃ c, evalFn f = .ok c := by
  rw [evalFn]
  by_cases h1 : f.fnTx = ∅
  · rw [if_pos h1]
    exact ⟨_, rfl⟩
  · rw [if_neg h1]
    by_cases h2 : f.line.all (fun ln => decide (ln.tx = ∅)) = true
    · rw [if_pos h2]
      exact ⟨_, rfl⟩
    · rw [if_neg h2]
      have hne : f.line ≠ [] := by
        intro he
        apply h2
        rw [he]
        rfl
      have h3 : ¬(f.total = 0) := by
        rw [hw]
        exact totalWeight_pos _ hne
      rw [if_neg h3]
      by_cases h4 : (evalAccum f.line).count = f.total
      · rw [if_pos h4]
        exact ⟨_, rfl⟩
      · rw [if_neg h4]
        exact ⟨_, rfl⟩

theorem mapM_total {α β : Type} (f : α → Except Err β) :
    ∀ (l : List α), (∀ x ∈ l, ∃ y, f x = .ok y) →
      ∃ l', l.mapM f = .ok l' := by
  intro l
  induction l with
  | nil => exact fun _ => ⟨[], rfl⟩
  | cons x xs ih =>
    intro h
    obtain ⟨y, hy⟩ := h x (List.mem_cons_self _ _)
    obtain ⟨ys, hys⟩ := ih (fun z hz => h z (List.mem_cons_of_mem _ hz))
    exact ⟨y :: ys, by rw [List.mapM_cons, hy, hys]; rfl⟩

theorem buildReport_total (st : RecState) (hw : weightsOk st.covMap) :
    ∃ rep, buildReport st = .ok rep := by
  rw [buildReport]
  apply mapM_total
  intro q hq
  have hq' : q ∈ st.covMap := (List.mem_filter.mp hq).1
  have hcm : ∃ c, evalCm q.2 = .ok c := by
    rw [evalCm]
    apply mapM_total
    intro s hs
    have hsrc : ∃ c, evalSrc s.2 = .ok c := by
      rw [evalSrc]
      apply mapM_total
      intro g hg
      obtain ⟨c, hc⟩ := evalFn_total g.2 (hw q hq' s hs g hg)
      exact ⟨_, by rw [hc]; rfl⟩
    obtain ⟨c, hc⟩ := hsrc
    exact ⟨_, by rw [hc]; rfl⟩
  obtain ⟨c, hc⟩ := hcm
  exact ⟨_, by rw [hc]; rfl⟩

theorem forall_map_transport {α β : Type} {P : α → Prop} (h : α → β)
    (hP : ∀ x y, h x = h y → P x → P y) :
    ∀ (l l' : List α), l.map h = l'.map h →
      (∀ x ∈ l, P x) → (∀ x ∈ l', P x) := by
  intro l
  induction l with
  | nil =>
    intro l' he _ x hx
    cases l' with
    | nil => cases hx
    | cons b bs => cases he
  | cons a as ih =>
    intro l' he hall x hx
    cases l' with
    | nil => cases hx
    | cons b bs =>
      simp only [List.map_cons, List.cons.injEq] at he
      rcases List.mem_cons.mp hx with rfl | hxs
      · exact hP a x he.1 (hall a (List.mem_cons_self _ _))
      · exact ih bs he.2 (fun z hz => hall z (List.mem_cons_of_mem _ hz)) x hxs

theorem totalWeight_static :
    ∀ (l l' : List LineRecord), l.map lineStatic = l'.map lineStatic →
      totalWeight l = totalWeight l' := by
  intro l
  induction l with
  | nil =>
    intro l' he
    cases l' with
    | nil => rfl
    | cons b bs => cases he
  | cons a as ih =>
    intro l' he
    cases l' with
    | nil => cases he
    | cons b bs =>
      simp only [List.map_cons, List.cons.injEq] at he
      have hj : a.jump = b.jump := by
        have := he.1
        rw [lineStatic, lineStatic, Prod.mk.injEq] at this
        exact this.2
      simp only [totalWeight, List.map_cons, List.sum_cons]
      have hw : lineWeight a = lineWeight b := by
        rw [lineWeight.eq_def, lineWeight.eq_def, hj]
      rw [hw]
      have := ih bs he.2
      simp only [totalWeight] at this
      rw [this]

/-- The total-weight invariant only depends on the static skeleton. -/
theorem weightsOk_static (m m' : CoverageMap)
    (hs : mapStatic m = mapStatic m') (hw : weightsOk m) : weightsOk m' := by
  simp only [mapStatic] at hs
  refine forall_map_transport (fun q => (q.1, cmStatic q.2)) ?_ m m' hs hw
  intro x y hxy hx
  have hcm : cmStatic x.2 = cmStatic y.2 := by
    rw [Prod.mk.injEq] at hxy
    exact hxy.2
  simp only [cmStatic] at hcm
  intro s hs' g hg'
  refine forall_map_transport (fun s => (s.1, srcStatic s.2)) ?_ x.2 y.2 hcm
    (fun u hu => hx u hu) s hs' g hg'
  intro u w huw hu
  have hsrc : srcStatic u.2 = srcStatic w.2 := by
    rw [Prod.mk.injEq] at huw
    exact huw.2
  simp only [srcStatic] at hsrc
  intro g' hg''
  refine forall_map_transport (fun g => (g.1, fnStatic g.2)) ?_ u.2 w.2 hsrc
    (fun v hv => hu v hv) g' hg''
  intro v v' hvv hv
  have hfn : fnStatic v.2 = fnStatic v'.2 := by
    rw [Prod.mk.injEq] at hvv
    exact hvv.2
  rw [fnStatic, fnStatic, Prod.mk.injEq, Prod.mk.injEq] at hfn
  obtain ⟨-, htot, hlines⟩ := hfn
  rw [← htot, ← totalWeight_static _ _ hlines]
  exact hv

/-- C3 (counterexample): the recorder-plus-evaluator core is not total.
A trace instruction whose source file is absent from the contract's coverage
map raises `KeyError`; a trace whose last instruction is a conditional jump
already recorded in the line's hit set raises `IndexError` on the
next-instruction lookup; and a hit function whose stored total weight is 0
raises `ZeroDivisionError` in the evaluator. -/
theorem c3_counterexample :
    runCoverage mapEx [⟨1, true, [⟨10, "PUSH1", "Token", "missing.sol"⟩]⟩] =
      .error .keyError ∧
    runCoverage mapEx [⟨1, true, [⟨20, "DUP1", "Token", "token.sol"⟩,
      ⟨200, "JUMPI", "Token", "token.sol"⟩]⟩] = .error .indexError ∧
    runCoverage [("Z", [("z.sol", [("f", ⟨{5}, ∅, [⟨{5}, none, ∅, ∅, ∅⟩], 0⟩)])])]
      [⟨1, true, [⟨5, "PUSH1", "Z", "z.sol"⟩]⟩] = .error .zeroDivisionError :=
  ⟨by decide, by decide, by decide⟩

/-- C3 (amended): the recorder-plus-evaluator core terminates normally and
produces a report provided every trace instruction is either unattributed
(falsy contract or source, skipped) or refers to a contract and source
present in the build data, no trace ends with a conditional-jump
instruction, and every function's stored total weight is the sum of its
per-line weights (the spec's own `total_weight` invariant). -/
theorem c3_amended (build : CoverageMap) (history : List Trace)
    (hattr : ∀ t ∈ history, ∀ i ∈ t.ins, instrOk build i)
    (hend : ∀ t ∈ history, traceEndOk t)
    (hw : weightsOk build) :
    ∃ rep, runCoverage build history = .ok rep := by
  obtain ⟨st, hst, hstat⟩ := recordTraces_total build history ⟨∅, build⟩ rfl
    (fun t ht => ⟨hattr t ht, hend t ht⟩)
  have hw' : weightsOk st.covMap := weightsOk_static build st.covMap hstat.symm hw
  obtain ⟨rep, hrep⟩ := buildReport_total st hw'
  refine ⟨rep, ?_⟩
  rw [runCoverage, hst]
  exact hrep

theorem c3_amended_witness :
    ∃ rep, runCoverage mapEx [trEx] = .ok rep :=
  c3_amended mapEx [trEx] (by decide) (by decide) (by decide)

/-- C4: an instruction whose pc is in no function's pc set, or in a
function's pc set but matching no line record (no line pc set contains it
for non-jump opcodes, no line jump pc equals it for conditional jumps), is
skipped without error: the recording step succeeds, the no-function case
leaves the coverage map unchanged, and the no-line cases change only the
matched function's `fn['tx']` set. -/
theorem c4 (r : RunId) (ins : Instr) (n? : Option Nat) (st : RecState)
    (cpre cpost : List (String × ContractMap)) (cm : ContractMap)
    (spre spost : List (String × SrcMap)) (fns : SrcMap)
    (hname : ins.contractName ≠ "") (hsrc : ins.source ≠ "")
    (hm : st.covMap = cpre ++ (ins.contractName, cm) :: cpost)
    (hcpre : ∀ q ∈ cpre, q.1 ≠ ins.contractName)
    (hcm : cm = spre ++ (ins.source, fns) :: spost)
    (hspre : ∀ q ∈ spre, q.1 ≠ ins.source) :
    ((∀ q ∈ fns, ins.pc ∉ q.2.fnPc) →
      recordInstr r ins n? st =
        .ok ⟨insert ins.contractName st.loaded, st.covMap⟩) ∧
    (∀ (fpre fpost : List (String × FnCoverage)) (fname : String)
        (fn : FnCoverage),
      fns = fpre ++ (fname, fn) :: fpost →
      (∀ q ∈ fpre, ins.pc ∉ q.2.fnPc) →
      ins.pc ∈ fn.fnPc →
      ((ins.op ≠ "JUMPI" → (∀ ln ∈ fn.line, ins.pc ∉ ln.pc) →
        recordInstr r ins n? st =
          .ok ⟨insert ins.contractName st.loaded,
            cpre ++ (ins.contractName, spre ++ (ins.source,
              fpre ++ (fname, { fn with fnTx := insert r fn.fnTx }) :: fpost)
              :: spost) :: cpost⟩) ∧
       (ins.op = "JUMPI" → (∀ ln ∈ fn.line, ln.jump ≠ some ins.pc) →
        recordInstr r ins n? st =
          .ok ⟨insert ins.contractName st.loaded,
            cpre ++ (ins.contractName, spre ++ (ins.source,
              fpre ++ (fname, { fn with fnTx := insert r fn.fnTx }) :: fpost)
              :: spost) :: cpost⟩))) := by
  have hbase : recordInstr r ins n? st =
      (atKeyThrow ins.contractName
        (atKeyThrow ins.source
          (atFirst (fun q => decide (ins.pc ∈ q.2.fnPc))
            (fun q => (applyFn r ins n? q.2).map (fun fn' => (q.1, fn')))))
        st.covMap).map
      (fun m => ⟨insert ins.contractName st.loaded, m⟩) := by
    rw [recordInstr, if_neg (by push_neg; exact ⟨hname, hsrc⟩)]
  rw [hbase, hm, hcm]
  rw [atKeyThrow_append _ _ _ _ _ hcpre, atKeyThrow_append _ _ _ _ _ hspre]
  constructor
  · intro hnofn
    rw [atFirst_none _ _ _ (fun q hq => by simp [hnofn q hq])]
    simp [Except.map]
  · intro fpre fpost fname fn hfns hfpre hfnpc
    rw [hfns, atFirst_append _ _ _ _ (fun q hq => by simp [hfpre q hq]),
      atFirst, if_pos (by simpa using hfnpc)]
    constructor
    · intro hop hnl
      have happ : applyFn r ins n? fn =
          .ok { fn with fnTx := insert r fn.fnTx } := by
        rw [applyFn, lineOp, if_neg hop,
          atFirst_none _ _ _ (fun ln hl => by simp [hnl ln hl])]
        rfl
      rw [happ]
      simp [Except.map]
    · intro hop hnl
      have happ : applyFn r ins n? fn =
          .ok { fn with fnTx := insert r fn.fnTx } := by
        rw [applyFn, lineOp, if_pos hop,
          atFirst_none _ _ _ (fun ln hl => by simp [hnl ln hl])]
        rfl
      rw [happ]
      simp [Except.map]

/-! ## Commutation machinery for C8

Recording a trace only reads and writes the membership of its own run
identifier, so recording steps of distinct runs commute.  `Swaps` states the
one-sided commutation used to permute whole traces. -/

theorem swaps_ok_left {α : Type} (g : α → Except Err α) :
    Swaps (fun x => .ok x) g := by
  intro x a b ha hb
  cases ha
  exact ⟨b, hb, rfl⟩

theorem swaps_ok_right {α : Type} (f : α → Except Err α) :
    Swaps f (fun x => .ok x) := by
  intro x a b ha hb
  cases hb
  exact ⟨x, rfl, ha⟩

theorem swaps_bind_left {α : Type} {f f' g : α → Except Err α}
    (h1 : Swaps f g) (h2 : Swaps f' g) :
    Swaps (fun x => (f x).bind f') g := by
  intro x a b ha hb
  replace ha : (f x).bind f' = .ok a := ha
  cases hf : f x with
  | error e => rw [hf] at ha; cases ha
  | ok m =>
    rw [hf] at ha
    replace ha : f' m = .ok a := ha
    obtain ⟨a₁, hga₁, hfa₁⟩ := h2 m a b ha hb
    obtain ⟨a', hga', hfa'⟩ := h1 x m a₁ hf hga₁
    refine ⟨a', hga', ?_⟩
    show (f a').bind f' = .ok b
    rw [hfa']
    exact hfa₁

theorem swaps_bind_right {α : Type} {f g g' : α → Except Err α}
    (h1 : Swaps f g) (h2 : Swaps f g') :
    Swaps f (fun x => (g x).bind g') := by
  intro x a b ha hb
  replace hb : (g a).bind g' = .ok b := hb
  cases hg : g a with
  | error e => rw [hg] at hb; cases hb
  | ok m =>
    rw [hg] at hb
    replace hb : g' m = .ok b := hb
    obtain ⟨a', hga', hfa'⟩ := h1 x a m ha hg
    obtain ⟨a'', hg'a'', hfa''⟩ := h2 a' m b hfa' hb
    refine ⟨a'', ?_, hfa''⟩
    show (g x).bind g' = .ok a''
    rw [hga']
    exact hg'a''

theorem lineHit_comm (r1 r2 : RunId) (ln : LineRecord) :
    lineHit r1 (lineHit r2 ln) = lineHit r2 (lineHit r1 ln) := by
  simp [lineHit, Finset.Insert.comm]

theorem swaps_hit_hit (r1 r2 : RunId) :
    Swaps (fun ln => .ok (lineHit r1 ln)) (fun ln => .ok (lineHit r2 ln)) := by
  intro x a b ha hb
  cases ha
  cases hb
  exact ⟨lineHit r2 x, rfl, by rw [lineHit_comm]⟩

theorem swaps_hit_jump (r1 r2 : RunId) (pc2 : Nat) (n2 : Option Nat)
    (hne : r1 ≠ r2) :
    Swaps (fun ln => .ok (lineHit r1 ln)) (jumpStep r2 pc2 n2) := by
  intro x a b ha hb
  cases ha
  by_cases hm : r2 ∈ x.tx
  · have hm' : r2 ∈ (lineHit r1 x).tx :=
      Finset.mem_insert_of_mem hm
    cases n2 with
    | none => rw [jumpStep_none_err _ _ _ hm'] at hb; cases hb
    | some npc =>
      by_cases hnp : npc = pc2 + 1
      · rw [jumpStep_fa _ _ _ _ hm' hnp] at hb
        cases hb
        exact ⟨{ x with fa := insert r2 x.fa },
          jumpStep_fa _ _ _ _ hm hnp, rfl⟩
      · rw [jumpStep_tr _ _ _ _ hm' hnp] at hb
        cases hb
        exact ⟨{ x with tr := insert r2 x.tr },
          jumpStep_tr _ _ _ _ hm hnp, rfl⟩
  · have hm' : r2 ∉ (lineHit r1 x).tx := by
      simp only [lineHit, Finset.mem_insert]
      push_neg
      exact ⟨fun h => hne h.symm, hm⟩
    rw [jumpStep_skip _ _ _ _ hm'] at hb
    cases hb
    exact ⟨x, jumpStep_skip _ _ _ _ hm, rfl⟩

theorem swaps_jump_hit (r1 r2 : RunId) (pc1 : Nat) (n1 : Option Nat)
    (hne : r1 ≠ r2) :
    Swaps (jumpStep r1 pc1 n1) (fun ln => .ok (lineHit r2 ln)) := by
  intro x a b ha hb
  cases hb
  by_cases hm : r1 ∈ x.tx
  · cases n1 with
    | none => rw [jumpStep_none_err _ _ _ hm] at ha; cases ha
    | some npc =>
      have hm' : r1 ∈ (lineHit r2 x).tx := Finset.mem_insert_of_mem hm
      by_cases hnp : npc = pc1 + 1
      · rw [jumpStep_fa _ _ _ _ hm hnp] at ha
        cases ha
        exact ⟨lineHit r2 x, rfl, by rw [jumpStep_fa _ _ _ _ hm' hnp]; rfl⟩
      · rw [jumpStep_tr _ _ _ _ hm hnp] at ha
        cases ha
        exact ⟨lineHit r2 x, rfl, by rw [jumpStep_tr _ _ _ _ hm' hnp]; rfl⟩
  · rw [jumpStep_skip _ _ _ _ hm] at ha
    cases ha
    have hm' : r1 ∉ (lineHit r2 x).tx := by
      simp only [lineHit, Finset.mem_insert]
      push_neg
      exact ⟨hne, hm⟩
    exact ⟨lineHit r2 x, rfl, jumpStep_skip _ _ _ _ hm'⟩

theorem swaps_jump_jump (r1 r2 : RunId) (pc1 pc2 : Nat) (n1 n2 : Option Nat) :
    Swaps (jumpStep r1 pc1 n1) (jumpStep r2 pc2 n2) := by
  intro x a b ha hb
  by_cases hm1 : r1 ∈ x.tx
  · by_cases hm2 : r2 ∈ x.tx
    · cases n1 with
      | none => rw [jumpStep_none_err _ _ _ hm1] at ha; cases ha
      | some npc1 =>
        cases n2 with
        | none =>
          have hm2' : r2 ∈ a.tx := by
            rw [(jumpStep_fields _ _ _ _ _ ha).2.2]
            exact hm2
          rw [jumpStep_none_err _ _ _ hm2'] at hb
          cases hb
        | some npc2 =>
          by_cases hnp1 : npc1 = pc1 + 1
          · rw [jumpStep_fa _ _ _ _ hm1 hnp1] at ha
            cases ha
            have hm2a : r2 ∈ ({ x with fa := insert r1 x.fa } : LineRecord).tx :=
              hm2
            by_cases hnp2 : npc2 = pc2 + 1
            · rw [jumpStep_fa _ _ _ _ hm2a hnp2] at hb
              cases hb
              have hm1a : r1 ∈ ({ x with fa := insert r2 x.fa } : LineRecord).tx :=
                hm1
              refine ⟨{ x with fa := insert r2 x.fa },
                jumpStep_fa _ _ _ _ hm2 hnp2, ?_⟩
              rw [jumpStep_fa _ _ _ _ hm1a hnp1]
              simp [Finset.Insert.comm]
            · rw [jumpStep_tr _ _ _ _ hm2a hnp2] at hb
              cases hb
              have hm1a : r1 ∈ ({ x with tr := insert r2 x.tr } : LineRecord).tx :=
                hm1
              refine ⟨{ x with tr := insert r2 x.tr },
                jumpStep_tr _ _ _ _ hm2 hnp2, ?_⟩
              rw [jumpStep_fa _ _ _ _ hm1a hnp1]
          · rw [jumpStep_tr _ _ _ _ hm1 hnp1] at ha
            cases ha
            have hm2a : r2 ∈ ({ x with tr := insert r1 x.tr } : LineRecord).tx :=
              hm2
            by_cases hnp2 : npc2 = pc2 + 1
            · rw [jumpStep_fa _ _ _ _ hm2a hnp2] at hb
              cases hb
              have hm1a : r1 ∈ ({ x with fa := insert r2 x.fa } : LineRecord).tx :=
                hm1
              refine ⟨{ x with fa := insert r2 x.fa },
                jumpStep_fa _ _ _ _ hm2 hnp2, ?_⟩
              rw [jumpStep_tr _ _ _ _ hm1a hnp1]
            · rw [jumpStep_tr _ _ _ _ hm2a hnp2] at hb
              cases hb
              have hm1a : r1 ∈ ({ x with tr := insert r2 x.tr } : LineRecord).tx :=
                hm1
              refine ⟨{ x with tr := insert r2 x.tr },
                jumpStep_tr _ _ _ _ hm2 hnp2, ?_⟩
              rw [jumpStep_tr _ _ _ _ hm1a hnp1]
              simp [Finset.Insert.comm]
    · have hm2' : r2 ∉ a.tx := by
        rw [(jumpStep_fields _ _ _ _ _ ha).2.2]
        exact hm2
      rw [jumpStep_skip _ _ _ _ hm2'] at hb
      cases hb
      exact ⟨x, jumpStep_skip _ _ _ _ hm2, ha⟩
  · rw [jumpStep_skip _ _ _ _ hm1] at ha
    cases ha
    refine ⟨b, hb, ?_⟩
    have hm1' : r1 ∉ b.tx := by
      rw [(jumpStep_fields _ _ _ _ _ hb).2.2]
      exact hm1
    exact jumpStep_skip _ _ _ _ hm1'

/-- Two `atFirst` passes with swapping element transforms that preserve both
match predicates swap as whole-list transforms. -/
theorem swaps_atFirst {α : Type} (p q : α → Bool) (f g : α → Except Err α)
    (hswap : Swaps f g)
    (hfp : ∀ x y, f x = .ok y → p y = p x ∧ q y = q x)
    (hgp : ∀ x y, g x = .ok y → p y = p x ∧ q y = q x) :
    Swaps (atFirst p f) (atFirst q g) := by
  intro l
  induction l with
  | nil =>
    intro a b ha hb
    rw [atFirst] at ha
    cases ha
    rw [atFirst] at hb
    cases hb
    exact ⟨[], rfl, rfl⟩
  | cons x xs ih =>
    intro a b ha hb
    rw [atFirst] at ha
    by_cases hpx : p x
    · rw [if_pos hpx] at ha
      obtain ⟨fx, hfx, hax⟩ := exceptMap_ok ha
      subst hax
      by_cases hqx : q x
      · have hqfx : q fx = true := by rw [(hfp x fx hfx).2, hqx]
        rw [atFirst, if_pos hqfx] at hb
        obtain ⟨gfx, hgfx, hbx⟩ := exceptMap_ok hb
        subst hbx
        obtain ⟨a', hga', hfa'⟩ := hswap x fx gfx hfx hgfx
        refine ⟨a' :: xs, ?_, ?_⟩
        · rw [atFirst, if_pos hqx, hga']
          rfl
        · have hpa' : p a' = true := by rw [(hgp x a' hga').1, hpx]
          rw [atFirst, if_pos hpa', hfa']
          rfl
      · have hqfx : ¬(q fx = true) := by rw [(hfp x fx hfx).2]; exact hqx
        rw [atFirst, if_neg hqfx] at hb
        obtain ⟨xs', hxs', hbx⟩ := exceptMap_ok hb
        subst hbx
        refine ⟨x :: xs', ?_, ?_⟩
        · rw [atFirst, if_neg hqx, hxs']
          rfl
        · rw [atFirst, if_pos hpx, hfx]
          rfl
    · rw [if_neg hpx] at ha
      obtain ⟨xs₁, hxs₁, hax⟩ := exceptMap_ok ha
      subst hax
      by_cases hqx : q x
      · rw [atFirst, if_pos hqx] at hb
        obtain ⟨gx, hgx, hbx⟩ := exceptMap_ok hb
        subst hbx
        refine ⟨gx :: xs, ?_, ?_⟩
        · rw [atFirst, if_pos hqx, hgx]
          rfl
        · have hpgx : ¬(p gx = true) := by rw [(hgp x gx hgx).1]; exact hpx
          rw [atFirst, if_neg hpgx, hxs₁]
          rfl
      · rw [atFirst, if_neg hqx] at hb
        obtain ⟨xs₂, hxs₂, hbx⟩ := exceptMap_ok hb
        subst hbx
        obtain ⟨xs₁', hg', hf'⟩ := ih xs₁ xs₂ hxs₁ hxs₂
        refine ⟨x :: xs₁', ?_, ?_⟩
        · rw [atFirst, if_neg hqx, hg']
          rfl
        · rw [atFirst, if_neg hpx, hf']
          rfl

/-- Two `atKeyThrow` passes with swapping value transforms swap, whatever the
two keys are: same key reduces to the value transforms, different keys touch
different entries. -/
theorem swaps_atKeyThrow {α : Type} (k k' : String) (f g : α → Except Err α)
    (hswap : Swaps f g) :
    Swaps (atKeyThrow k f) (atKeyThrow k' g) := by
  intro m
  induction m with
  | nil =>
    intro a b ha _
    rw [atKeyThrow] at ha
    cases ha
  | cons y ys ih =>
    intro a b ha hb
    obtain ⟨ky, vy⟩ := y
    rw [atKeyThrow] at ha
    by_cases h1 : ky = k
    · rw [if_pos h1] at ha
      obtain ⟨fv, hfv, hax⟩ := exceptMap_ok ha
      subst hax
      by_cases h2 : ky = k'
      · rw [atKeyThrow, if_pos h2] at hb
        obtain ⟨gfv, hgfv, hbx⟩ := exceptMap_ok hb
        subst hbx
        obtain ⟨a', hga', hfa'⟩ := hswap vy fv gfv hfv hgfv
        refine ⟨(ky, a') :: ys, ?_, ?_⟩
        · rw [atKeyThrow, if_pos h2, hga']
          rfl
        · rw [atKeyThrow, if_pos h1, hfa']
          rfl
      · rw [atKeyThrow, if_neg h2] at hb
        obtain ⟨ys', hys', hbx⟩ := exceptMap_ok hb
        subst hbx
        refine ⟨(ky, vy) :: ys', ?_, ?_⟩
        · rw [atKeyThrow, if_neg h2, hys']
          rfl
        · rw [atKeyThrow, if_pos h1, hfv]
          rfl
    · rw [if_neg h1] at ha
      obtain ⟨ys₁, hys₁, hax⟩ := exceptMap_ok ha
      subst hax
      by_cases h2 : ky = k'
      · rw [atKeyThrow, if_pos h2] at hb
        obtain ⟨gv, hgv, hbx⟩ := exceptMap_ok hb
        subst hbx
        refine ⟨(ky, gv) :: ys, ?_, ?_⟩
        · rw [atKeyThrow, if_pos h2, hgv]
          rfl
        · rw [atKeyThrow, if_neg h1, hys₁]
          rfl
      · rw [atKeyThrow, if_neg h2] at hb
        obtain ⟨ys₂, hys₂, hbx⟩ := exceptMap_ok hb
        subst hbx
        obtain ⟨ys₁', hg', hf'⟩ := ih ys₁ ys₂ hys₁ hys₂
        refine ⟨(ky, vy) :: ys₁', ?_, ?_⟩
        · rw [atKeyThrow, if_neg h2, hg']
          rfl
        · rw [atKeyThrow, if_neg h1, hf']
          rfl

/-- Lift a swap on values to a swap on named pairs. -/
theorem swaps_pairLift (F G : FnCoverage → Except Err FnCoverage)
    (h : Swaps F G) :
    Swaps (fun q : String × FnCoverage => (F q.2).map (fun v => (q.1, v)))
          (fun q : String × FnCoverage => (G q.2).map (fun v => (q.1, v))) := by
  intro x a b ha hb
  replace ha : (F x.2).map (fun v => (x.1, v)) = .ok a := ha
  obtain ⟨fv, hfv, hav⟩ := exceptMap_ok ha
  subst hav
  replace hb : (G fv).map (fun v => (x.1, v)) = .ok b := hb
  obtain ⟨gv, hgv, hbv⟩ := exceptMap_ok hb
  subst hbv
  obtain ⟨v', hgv', hfv'⟩ := h x.2 fv gv hfv hgv
  refine ⟨(x.1, v'), ?_, ?_⟩
  · show (G x.2).map _ = _
    rw [hgv']
    rfl
  · show (F v').map _ = _
    rw [hfv']
    rfl

theorem applyFn_fnPc (r : RunId) (i : Instr) (n? : Option Nat)
    (fn fn' : FnCoverage) (h : applyFn r i n? fn = .ok fn') :
    fn'.fnPc = fn.fnPc := by
  rw [applyFn] at h
  obtain ⟨l, _, he⟩ := exceptMap_ok h
  subst he
  rfl

/-- Line-level effects of two instructions of distinct runs swap. -/
theorem swaps_lineOp (r1 r2 : RunId) (i1 i2 : Instr) (n1 n2 : Option Nat)
    (hne : r1 ≠ r2) : Swaps (lineOp r1 i1 n1) (lineOp r2 i2 n2) := by
  rw [lineOp, lineOp]
  by_cases hop1 : i1.op = "JUMPI" <;> by_cases hop2 : i2.op = "JUMPI"
  · rw [if_pos hop1, if_pos hop2]
    exact swaps_atFirst _ _ _ _ (swaps_jump_jump r1 r2 i1.pc i2.pc n1 n2)
      (fun x y h => by
        obtain ⟨h1, h2, -⟩ := jumpStep_fields _ _ _ _ _ h
        simp [h1, h2])
      (fun x y h => by
        obtain ⟨h1, h2, -⟩ := jumpStep_fields _ _ _ _ _ h
        simp [h1, h2])
  · rw [if_pos hop1, if_neg hop2]
    exact swaps_atFirst _ _ _ _ (swaps_jump_hit r1 r2 i1.pc n1 hne)
      (fun x y h => by
        obtain ⟨h1, h2, -⟩ := jumpStep_fields _ _ _ _ _ h
        simp [h1, h2])
      (fun x y h => by cases h; simp [lineHit])
  · rw [if_neg hop1, if_pos hop2]
    exact swaps_atFirst _ _ _ _ (swaps_hit_jump r1 r2 i2.pc n2 hne)
      (fun x y h => by cases h; simp [lineHit])
      (fun x y h => by
        obtain ⟨h1, h2, -⟩ := jumpStep_fields _ _ _ _ _ h
        simp [h1, h2])
  · rw [if_neg hop1, if_neg hop2]
    exact swaps_atFirst _ _ _ _ (swaps_hit_hit r1 r2)
      (fun x y h => by cases h; simp [lineHit])
      (fun x y h => by cases h; simp [lineHit])

/-- Per-function recording effects of two instructions of distinct runs
swap. -/
theorem swaps_applyFn (r1 r2 : RunId) (i1 i2 : Instr) (n1 n2 : Option Nat)
    (hne : r1 ≠ r2) : Swaps (applyFn r1 i1 n1) (applyFn r2 i2 n2) := by
  intro fn a b ha hb
  rw [applyFn] at ha hb
  obtain ⟨l1, hl1, hae⟩ := exceptMap_ok ha
  subst hae
  obtain ⟨l2, hl2, hbe⟩ := exceptMap_ok hb
  subst hbe
  obtain ⟨l1', hL2, hL1⟩ := swaps_lineOp r1 r2 i1 i2 n1 n2 hne fn.line l1 l2
    hl1 hl2
  refine ⟨{ fn with fnTx := insert r2 fn.fnTx, line := l1' }, ?_, ?_⟩
  · rw [applyFn, hL2]
    rfl
  · rw [applyFn]
    show (lineOp r1 i1 n1 l1').map _ = _
    rw [hL1]
    have hcomm : insert r1 (insert r2 fn.fnTx) = insert r2 (insert r1 fn.fnTx) :=
      Finset.Insert.comm _ _ _
    show Except.ok ({ fn with fnTx := insert r1 (insert r2 fn.fnTx), line := l2 }
      : FnCoverage) = _
    rw [hcomm]

/-- Whole recording steps of two instructions of distinct runs swap. -/
theorem swaps_recordInstr (r1 r2 : RunId) (i1 i2 : Instr) (n1 n2 : Option Nat)
    (hne : r1 ≠ r2) : Swaps (recordInstr r1 i1 n1) (recordInstr r2 i2 n2) := by
  intro st a b ha hb
  rw [recordInstr] at ha
  by_cases hs1 : i1.contractName = "" ∨ i1.source = ""
  · rw [if_pos hs1] at ha
    cases ha
    refine ⟨b, hb, ?_⟩
    rw [recordInstr, if_pos hs1]
  · rw [if_neg hs1] at ha
    obtain ⟨m1, hm1, hae⟩ := exceptMap_ok ha
    subst hae
    rw [recordInstr] at hb
    by_cases hs2 : i2.contractName = "" ∨ i2.source = ""
    · rw [if_pos hs2] at hb
      cases hb
      refine ⟨st, by rw [recordInstr, if_pos hs2], ?_⟩
      rw [recordInstr, if_neg hs1, hm1]
      rfl
    · rw [if_neg hs2] at hb
      obtain ⟨m2, hm2, hbe⟩ := exceptMap_ok hb
      subst hbe
      have hK := swaps_atKeyThrow i1.contractName i2.contractName _ _
        (swaps_atKeyThrow i1.source i2.source _ _
          (swaps_atFirst (fun q : String × FnCoverage => decide (i1.pc ∈ q.2.fnPc))
            (fun q : String × FnCoverage => decide (i2.pc ∈ q.2.fnPc)) _ _
            (swaps_pairLift _ _ (swaps_applyFn r1 r2 i1 i2 n1 n2 hne))
            (fun x y h => by
              replace h : (applyFn r1 i1 n1 x.2).map (fun v => (x.1, v)) = .ok y := h
              obtain ⟨fv, hfv, hyv⟩ := exceptMap_ok h
              subst hyv
              simp [applyFn_fnPc _ _ _ _ _ hfv])
            (fun x y h => by
              replace h : (applyFn r2 i2 n2 x.2).map (fun v => (x.1, v)) = .ok y := h
              obtain ⟨fv, hfv, hyv⟩ := exceptMap_ok h
              subst hyv
              simp [applyFn_fnPc _ _ _ _ _ hfv])))
      obtain ⟨m1', hK2, hK1⟩ := hK st.covMap m1 m2 hm1 hm2
      refine ⟨⟨insert i2.contractName st.loaded, m1'⟩, ?_, ?_⟩
      · rw [recordInstr, if_neg hs2, hK2]
        rfl
      · rw [recordInstr, if_neg hs1]
        show (atKeyThrow i1.contractName _ m1').map _ = _
        rw [hK1]
        have hcomm : insert i1.contractName (insert i2.contractName st.loaded) =
            insert i2.contractName (insert i1.contractName st.loaded) :=
          Finset.Insert.comm _ _ _
        show Except.ok (⟨insert i1.contractName (insert i2.contractName st.loaded),
          m2⟩ : RecState) = _
        rw [hcomm]

/-- A single recording step swaps with recording a whole trace of a distinct
run. -/
theorem swaps_instr_trace (r1 r2 : RunId) (i1 : Instr) (n1 : Option Nat)
    (t2 : List Instr) (hne : r1 ≠ r2) :
    Swaps (recordInstr r1 i1 n1) (recordTrace r2 t2) := by
  induction t2 with
  | nil => exact swaps_ok_right _
  | cons i rest ih =>
    exact swaps_bind_right (swaps_recordInstr r1 r2 i1 i n1 _ hne) ih

/-- Recording two whole traces of distinct runs swaps. -/
theorem swaps_trace_trace (r1 r2 : RunId) (t1 t2 : List Instr) (hne : r1 ≠ r2) :
    Swaps (recordTrace r1 t1) (recordTrace r2 t2) := by
  induction t1 with
  | nil => exact swaps_ok_left _
  | cons i rest ih =>
    exact swaps_bind_left (swaps_instr_trace r1 r2 i _ t2 hne) ih

/-- Two history entries with distinct run identifiers swap. -/
theorem swaps_traceOp (t1 t2 : Trace) (hne : t1.run ≠ t2.run) :
    Swaps (traceOp t1) (traceOp t2) := by
  intro st a b ha hb
  rw [traceOp] at ha hb
  by_cases hr1 : t1.receiver
  · rw [if_pos hr1] at ha
    by_cases hr2 : t2.receiver
    · rw [if_pos hr2] at hb
      obtain ⟨a', h1, h2⟩ :=
        swaps_trace_trace t1.run t2.run t1.ins t2.ins hne st a b ha hb
      exact ⟨a', by rw [traceOp, if_pos hr2]; exact h1,
        by rw [traceOp, if_pos hr1]; exact h2⟩
    · rw [if_neg hr2] at hb
      cases hb
      exact ⟨st, by rw [traceOp, if_neg hr2],
        by rw [traceOp, if_pos hr1]; exact ha⟩
  · rw [if_neg hr1] at ha
    cases ha
    exact ⟨b, by rw [traceOp]; exact hb, by rw [traceOp, if_neg hr1]⟩

/-- Under pairwise-distinct run identifiers, recording a permutation of the
history reaches the same final state. -/
theorem recordTraces_perm (l1 l2 : List Trace) (hp : l1.Perm l2) :
    (l1.map Trace.run).Nodup →
    ∀ st out, recordTraces l1 st = .ok out → recordTraces l2 st = .ok out := by
  induction hp with
  | nil => exact fun _ _ _ h => h
  | cons x hsub ih =>
    intro hd st out h
    rw [recordTraces] at h ⊢
    cases ht : traceOp x st with
    | error e => rw [ht] at h; cases h
    | ok st1 =>
      rw [ht] at h
      replace h : recordTraces _ st1 = .ok out := h
      show (Except.ok st1).bind _ = _
      exact ih (List.nodup_cons.mp hd).2 st1 out h
  | swap x y l =>
    intro hd st out h
    have hxy : y.run ≠ x.run := by
      have hnm := (List.nodup_cons.mp hd).1
      intro he
      exact hnm (by rw [he]; exact List.mem_cons_self _ _)
    rw [recordTraces] at h ⊢
    cases ht1 : traceOp y st with
    | error e => rw [ht1] at h; cases h
    | ok st1 =>
      rw [ht1] at h
      replace h : recordTraces (x :: l) st1 = .ok out := h
      rw [recordTraces] at h
      cases ht2 : traceOp x st1 with
      | error e => rw [ht2] at h; cases h
      | ok st2 =>
        rw [ht2] at h
        replace h : recordTraces l st2 = .ok out := h
        obtain ⟨st1', h1, h2⟩ := swaps_traceOp y x hxy st st1 st2 ht1 ht2
        rw [h1]
        show recordTraces (y :: l) st1' = .ok out
        rw [recordTraces, h2]
        exact h
  | trans h12 h23 ih12 ih23 =>
    intro hd st out h
    exact ih23 (h12.map Trace.run |>.nodup hd) st out (ih12 hd st out h)

/-- C8: recording the same traces in any two orders (with pairwise-distinct
run identifiers, as the transaction objects of `history` are distinct) and
then evaluating yields an identical report. -/
theorem c8 (build : CoverageMap) (l1 l2 : List Trace) (rep : Report)
    (hd : (l1.map Trace.run).Nodup) (hp : l1.Perm l2)
    (h : runCoverage build l1 = .ok rep) : runCoverage build l2 = .ok rep := by
  rw [runCoverage] at h ⊢
  cases hr : recordTraces l1 ⟨∅, build⟩ with
  | error e => rw [hr] at h; cases h
  | ok st =>
    rw [hr] at h
    rw [recordTraces_perm l1 l2 hp hd _ st hr]
    exact h

theorem c8_witness :
    runCoverage mapW [trW2, trW1] = .ok [("T", [("s", [("f", .bare 1)])])] :=
  c8 mapW [trW1, trW2] [trW2, trW1] [("T", [("s", [("f", .bare 1)])])]
    (by decide) (List.Perm.swap trW2 trW1 []) (by decide)

theorem c4_witness :
    recordInstr 1 ⟨999, "PUSH1", "Token", "token.sol"⟩ none ⟨∅, mapEx⟩ =
      .ok ⟨{"Token"}, mapEx⟩ :=
  (c4 1 ⟨999, "PUSH1", "Token", "token.sol"⟩ none ⟨∅, mapEx⟩
      [] [] [("token.sol", [("transfer", fnEx)])] [] [] [("transfer", fnEx)]
      (by decide) (by decide) rfl (by simp) rfl (by simp)).1 (by decide)

end Brownie
